import Mathlib

/-!
Verification of the web-scraping pipeline: the serializer in
`simple_web_scraper.py` (`scrape_website`, text-dump write), the parser and
normalizer in `preprocess_scraped_data.py` (`parse_scraped_content`,
`clean_text`, `preprocess_content`), and the batch loops
(`scrape_multiple_websites`, `process_all_files`).

Python strings are modelled as Lean `String` (processed as `List Char`);
Python dicts as association lists with insertion-order semantics; regular
expressions are translated into explicit scanning functions that mirror the
semantics of the concrete patterns used in the source.
-/

namespace Scrape

/-! ## Character classes (Python `\s`, `\w`, and the clean_text allow-list) -/

/-- Python `\s` whitespace class (ASCII part). -/
def isSpaceChar (c : Char) : Bool :=
  c = ' ' || c = '\t' || c = '\n' || c = '\r' || c = '\x0b' || c = '\x0c'

/-- Python `\w` word class, over ASCII. -/
def isWordChar (c : Char) : Bool :=
  c.isAlpha || c.isDigit || c = '_'

/-- The allow-list of `clean_text`: `[^\w\s\-.,!?;:()\[\]{}"\']` is removed,
so a character is kept iff it is a word character, whitespace, or one of the
listed punctuation characters. -/
def allowedChar (c : Char) : Bool :=
  isWordChar c || isSpaceChar c ||
    (['-', '.', ',', '!', '?', ';', ':', '(', ')', '[', ']', '\x7b', '\x7d', '"', '\''].contains c)

/-! ## List-level string utilities -/

/-- Python `str.strip()`: drop leading and trailing whitespace. -/
def pyStripL (l : List Char) : List Char :=
  ((l.dropWhile isSpaceChar).reverse.dropWhile isSpaceChar).reverse

/-- Python `str.strip()` on `String`. -/
def pyStrip (s : String) : String := ⟨pyStripL s.data⟩

/-- Collapse every maximal whitespace run into a single `' '`
(`re.sub(r'\s+', ' ', text)`).  The flag records whether we are inside a
run whose replacement space has already been emitted. -/
def collapseAux : List Char → Bool → List Char
  | [], _ => []
  | c :: cs, inRun =>
    if isSpaceChar c then
      if inRun then collapseAux cs true
      else ' ' :: collapseAux cs true
    else c :: collapseAux cs false

/-- `re.sub(r'\s+', ' ', text)`. -/
def collapseWs (l : List Char) : List Char := collapseAux l false

/-- `clean_text` on `List Char`: collapse whitespace, drop disallowed
characters, collapse again, strip. -/
def cleanList (l : List Char) : List Char :=
  pyStripL (collapseWs ((collapseWs l).filter allowedChar))

/-- `clean_text` from `preprocess_scraped_data.py`: the empty string is
returned unchanged, otherwise the four-step normalization pipeline runs. -/
def cleanText (s : String) : String :=
  if s.data = [] then "" else ⟨cleanList s.data⟩

/-! ## Data model -/

structure Heading where
  level : String
  text : String
deriving DecidableEq, Repr

structure Link where
  text : String
  href : String
deriving DecidableEq, Repr

structure ImageData where
  src : String
  alt : String
  title : String
deriving DecidableEq, Repr

/-- A raw extracted record, as assembled by `scrape_website`. -/
structure ScrapedData where
  url : String
  title : String
  headings : List Heading
  paragraphs : List String
  links : List Link
  images : List ImageData
  meta_tags : List (String × String)
  abstract : String
  full_text : String
deriving DecidableEq, Repr

/-- The record reconstructed by `parse_scraped_content` (and also the shape
of the cleaned record produced by `preprocess_content`): `statistics` is the
dict parsed from the trailing statistics block, empty when the pattern did
not match. -/
structure ParsedData where
  url : String
  title : String
  abstract : String
  headings : List Heading
  paragraphs : List String
  links : List Link
  meta_tags : List (String × String)
  statistics : List (String × Nat)
deriving DecidableEq, Repr

/-- The `processed_stats` dict computed by `preprocess_content`; the float
average is modelled as an exact rational. -/
structure ProcessedStats where
  clean_headings_count : Nat
  clean_paragraphs_count : Nat
  clean_links_count : Nat
  average_paragraph_length : ℚ
  total_words : Nat
  processing_timestamp : String
deriving DecidableEq, Repr

/-! ## Normalizer (`preprocess_content`) -/

/-- Clean headings: drop a heading whose cleaned text is empty, keep the
level unchanged. -/
def cleanHeadings (hs : List Heading) : List Heading :=
  hs.filterMap (fun h =>
    let t := cleanText h.text
    if t ≠ "" then some ⟨h.level, t⟩ else none)

/-- Clean paragraphs with the `seen_paragraphs` set: keep a paragraph iff
its cleaned text is nonempty, longer than 10 characters, and not a duplicate
of an already-kept paragraph. -/
def cleanParagraphs : List String → List String → List String
  | [], _ => []
  | p :: ps, seen =>
    let c := cleanText p
    if c ≠ "" ∧ 10 < c.length ∧ c ∉ seen then
      c :: cleanParagraphs ps (c :: seen)
    else
      cleanParagraphs ps seen

/-- Clean links: drop a link whose cleaned text is empty, keep `href`. -/
def cleanLinks (ls : List Link) : List Link :=
  ls.filterMap (fun l =>
    let t := cleanText l.text
    if t ≠ "" then some ⟨t, l.href⟩ else none)

/-- Token splitter of Python `str.split()` with no argument: split on
whitespace runs, dropping empty tokens. -/
def splitWsGo : List Char → List Char → List (List Char)
  | [], tok => if tok = [] then [] else [tok.reverse]
  | c :: cs, tok =>
    if isSpaceChar c then
      if tok = [] then splitWsGo cs [] else tok.reverse :: splitWsGo cs []
    else splitWsGo cs (c :: tok)

/-- `len(' '.join(paragraphs).split())`. -/
def countWords (ps : List String) : Nat :=
  (splitWsGo (String.intercalate " " ps).data []).length

/-- `preprocess_content`, with the wall-clock timestamp made an explicit
input `now`.  Returns the cleaned record together with `processed_stats`;
`url`, `meta_tags` and `statistics` are carried over unchanged (the source
copies the statistics dict, which is equality-preserving). -/
def preprocessContent (now : String) (p : ParsedData) : ParsedData × ProcessedStats :=
  let cleaned : ParsedData :=
    { url := p.url
      title := cleanText p.title
      abstract := cleanText p.abstract
      headings := cleanHeadings p.headings
      paragraphs := cleanParagraphs p.paragraphs []
      links := cleanLinks p.links
      meta_tags := p.meta_tags
      statistics := p.statistics }
  (cleaned,
    { clean_headings_count := cleaned.headings.length
      clean_paragraphs_count := cleaned.paragraphs.length
      clean_links_count := cleaned.links.length
      average_paragraph_length :=
        ((cleaned.paragraphs.map String.length).sum : ℚ) / (max cleaned.paragraphs.length 1 : ℚ)
      total_words := countWords cleaned.paragraphs
      processing_timestamp := now })

/-! ## Serializer: the text-dump write of `scrape_website` -/

/-- Sequential `f.write` calls: concatenate a list of written pieces. -/
def concatStrs : List String → String
  | [] => ""
  | s :: rest => s ++ concatStrs rest

/-- One `LEVEL: text` heading line, level upper-cased. -/
def headingLine (h : Heading) : String :=
  h.level.toUpper ++ ": " ++ h.text ++ "\n"

/-- One numbered paragraph entry `"{i}. {para}\n\n"`. -/
def paraEntry (i : Nat) (p : String) : String :=
  toString i ++ ". " ++ p ++ "\n\n"

/-- One numbered link entry `"{i}. {text} -> {href}\n"`. -/
def linkEntry (i : Nat) (l : Link) : String :=
  toString i ++ ". " ++ l.text ++ " -> " ++ l.href ++ "\n"

/-- One `name: content` meta-tag line. -/
def metaLine (kv : String × String) : String :=
  kv.1 ++ ": " ++ kv.2 ++ "\n"

def paraEntriesFrom : Nat → List String → List String
  | _, [] => []
  | i, p :: ps => paraEntry i p :: paraEntriesFrom (i + 1) ps

/-- The numbered paragraph entries written to the dump: the first 20
paragraphs, numbered from 1 (`enumerate(data['paragraphs'][:20], 1)`). -/
def paraEntries (ps : List String) : List String :=
  paraEntriesFrom 1 (ps.take 20)

def linkEntriesFrom : Nat → List Link → List String
  | _, [] => []
  | i, l :: ls => linkEntry i l :: linkEntriesFrom (i + 1) ls

/-- The numbered link entries written to the dump: the first 20 links,
numbered from 1. -/
def linkEntries (ls : List Link) : List String :=
  linkEntriesFrom 1 (ls.take 20)

/-- The trailing five-line statistics block, computed from the untruncated
extracted data. -/
def statsBlock (d : ScrapedData) : String :=
  "FULL TEXT LENGTH: " ++ toString d.full_text.length ++ " characters\n" ++
  "TOTAL HEADINGS: " ++ toString d.headings.length ++ "\n" ++
  "TOTAL PARAGRAPHS: " ++ toString d.paragraphs.length ++ "\n" ++
  "TOTAL LINKS: " ++ toString d.links.length ++ "\n" ++
  "TOTAL IMAGES: " ++ toString d.images.length ++ "\n"

/-- Everything `scrape_website` writes to the text dump before the META TAGS
block: banner, URL/Title lines, and the optional abstract, headings,
paragraphs and links sections. -/
def serializeUpToMeta (d : ScrapedData) : String :=
  "WEBSITE SCRAPED DATA\n" ++ ⟨List.replicate 50 '='⟩ ++ "\n\n" ++
  "URL: " ++ d.url ++ "\n" ++
  "Title: " ++ d.title ++ "\n\n" ++
  (if d.abstract ≠ "" then "ABSTRACT:\n" ++ d.abstract ++ "\n\n" else "") ++
  (if d.headings ≠ [] then "HEADINGS:\n" ++ concatStrs (d.headings.map headingLine) ++ "\n" else "") ++
  (if d.paragraphs ≠ [] then "PARAGRAPHS:\n" ++ concatStrs (paraEntries d.paragraphs) else "") ++
  (if d.links ≠ [] then "LINKS (first 20):\n" ++ concatStrs (linkEntries d.links) ++ "\n" else "")

/-- The optional META TAGS section. -/
def metaSection (d : ScrapedData) : String :=
  if d.meta_tags ≠ [] then "META TAGS:\n" ++ concatStrs (d.meta_tags.map metaLine) ++ "\n" else ""

/-- The text dump written by `scrape_website` (lines 81-117 of
`simple_web_scraper.py`). -/
def serializeRecord (d : ScrapedData) : String :=
  serializeUpToMeta d ++ metaSection d ++ statsBlock d

/-! ## Parser: `parse_scraped_content` -/

/-- If `p` is a prefix of `l`, the remainder of `l` after it. -/
def dropPfx : List Char → List Char → Option (List Char)
  | [], l => some l
  | _ :: _, [] => none
  | p :: ps, c :: cs => if p = c then dropPfx ps cs else none

/-- Remainder of `l` after the first occurrence of `pat`
(the scan of `re.search` up to and past the literal part of a pattern). -/
def dropSub (pat : List Char) : List Char → Option (List Char)
  | [] => if pat = [] then some [] else none
  | c :: cs =>
    match dropPfx pat (c :: cs) with
    | some rest => some rest
    | none => dropSub pat cs

/-- Does `pat` occur as a contiguous sublist of `l`? -/
def occursL (pat : List Char) : List Char → Bool
  | [] => pat.isEmpty
  | c :: cs => pat.isPrefixOf (c :: cs) || occursL pat cs

/-- Substring test on `String`s. -/
def containsSub (pat s : String) : Bool := occursL pat.data s.data

/-- A lookahead position of a block regex `(?=\n\n|LABEL|$)`: the scan stops
where one of the terminator strings starts, or (the `$` of a pattern without
`re.MULTILINE`) just before a final newline, or at end of input.  The
terminator list always carries `"\n\n"` alongside the label alternatives. -/
def isStopHere (terms : List (List Char)) (l : List Char) : Bool :=
  terms.any (fun t => t.isPrefixOf l) || l == ['\n']

/-- The body captured by the non-greedy `(.*?)` of a block regex: all
characters up to the first stop position. -/
def stopAt (terms : List (List Char)) : List Char → List Char
  | [] => []
  | c :: cs => if isStopHere terms (c :: cs) then [] else c :: stopAt terms cs

/-- `re.search(label + r'(.*?)(?=term1|term2|$)', content, re.DOTALL)`:
find the first occurrence of the literal label, then capture non-greedily up
to the next terminator. -/
def extractBlock (label : List Char) (terms : List (List Char)) (content : List Char) :
    Option (List Char) :=
  (dropSub label content).map (stopAt terms)

/-- `re.search(label + r'(.+)', content)` for the single-line `URL: ` and
`Title: ` patterns: the label may match anywhere (it is not anchored to line
start), and must be followed by at least one non-newline character; the
group is the rest of that line. -/
def matchLine (label : List Char) : List Char → Option (List Char)
  | [] => none
  | c :: cs =>
    match dropPfx label (c :: cs) with
    | some (d :: ds) =>
      if d ≠ '\n' then some ((d :: ds).takeWhile (fun x => x ≠ '\n'))
      else matchLine label cs
    | _ => matchLine label cs

def consHead (c : Char) : List (List Char) → List (List Char)
  | [] => [[c]]
  | p :: ps => (c :: p) :: ps

/-- Python `str.split('\n')`. -/
def splitNl : List Char → List (List Char)
  | [] => [[]]
  | c :: cs => if c = '\n' then [] :: splitNl cs else consHead c (splitNl cs)

/-- Python `str.split('->')`: split on every occurrence of the separator,
left to right, non-overlapping. -/
def splitArrow : List Char → List (List Char)
  | [] => [[]]
  | [c] => [[c]]
  | c :: d :: rest =>
    if c = '-' ∧ d = '>' then [] :: splitArrow rest
    else consHead c (splitArrow (d :: rest))

/-- Python `':' in line` plus `line.split(':', 1)`: the parts before and
after the first colon, or `none` when there is no colon. -/
def splitFirstColon : List Char → Option (List Char × List Char)
  | [] => none
  | c :: cs =>
    if c = ':' then some ([], cs)
    else (splitFirstColon cs).map (fun ab => (c :: ab.1, ab.2))

/-- `re.sub(r'^\d+\.\s*', '', s)`: strip a leading enumeration prefix. -/
def stripEnum (l : List Char) : List Char :=
  let ds := l.takeWhile Char.isDigit
  if ds ≠ [] then
    match l.drop ds.length with
    | '.' :: rest => rest.dropWhile isSpaceChar
    | _ => l
  else l

/-- A heading line: `if ':' in line: level, text = line.split(':', 1)`. -/
def headingOfLine (line : List Char) : Option Heading :=
  (splitFirstColon line).map (fun lt => ⟨⟨pyStripL lt.1⟩, ⟨pyStripL lt.2⟩⟩)

/-- A paragraph line: kept when nonempty after stripping and not starting
with `FULL TEXT` or `TOTAL`; the enumeration prefix is then removed and the
result kept when nonempty. -/
def paraOfLine (line : List Char) : Option (List Char) :=
  if pyStripL line ≠ [] ∧ ¬ ("FULL TEXT".data.isPrefixOf line) ∧
      ¬ ("TOTAL".data.isPrefixOf line) then
    let c := stripEnum (pyStripL line)
    if c ≠ [] then some c else none
  else none

/-- A link line: split on `->`; only a line splitting into exactly two parts
yields a link, the left part stripped of its enumeration prefix. -/
def linkOfLine (line : List Char) : Option Link :=
  match splitArrow line with
  | [a, b] => some ⟨⟨stripEnum (pyStripL a)⟩, ⟨pyStripL b⟩⟩
  | _ => none

/-- Python dict assignment `d[k] = v` on an insertion-ordered association
list: an existing key is updated in place, a new key is appended. -/
def dictInsert (m : List (String × String)) (kv : String × String) :
    List (String × String) :=
  if m.any (fun p => p.1 == kv.1) then
    m.map (fun p => if p.1 == kv.1 then (p.1, kv.2) else p)
  else m ++ [kv]

/-- The meta-tag line loop.  Alongside the accumulated dict it returns the
last value assigned to the loop variable `content` — the right-hand part of
the last colon-containing line — because that assignment shadows the
function's `content` parameter in the source. -/
def metaLinesFold : List (List Char) → List (String × String) → Option (List Char) →
    List (String × String) × Option (List Char)
  | [], acc, sh => (acc, sh)
  | line :: rest, acc, sh =>
    match splitFirstColon line with
    | some nc => metaLinesFold rest (dictInsert acc (⟨pyStripL nc.1⟩, ⟨pyStripL nc.2⟩)) (some nc.2)
    | none => metaLinesFold rest acc sh

/-- One or more digits (`\d+`, greedy, always followed by a non-digit
literal in the statistics pattern, hence the maximal run). -/
def expectNum (l : List Char) : Option (Nat × List Char) :=
  let ds := l.takeWhile Char.isDigit
  if ds = [] then none
  else some (ds.foldl (fun n c => 10 * n + (c.toNat - 48)) 0, l.drop ds.length)

/-- Match the fixed five-line statistics pattern at the current position. -/
def matchStatsAt (l : List Char) : Option (Nat × Nat × Nat × Nat × Nat) := do
  let r1 ← dropPfx "FULL TEXT LENGTH: ".data l
  let (n1, r2) ← expectNum r1
  let r3 ← dropPfx " characters\nTOTAL HEADINGS: ".data r2
  let (n2, r4) ← expectNum r3
  let r5 ← dropPfx "\nTOTAL PARAGRAPHS: ".data r4
  let (n3, r6) ← expectNum r5
  let r7 ← dropPfx "\nTOTAL LINKS: ".data r6
  let (n4, r8) ← expectNum r7
  let r9 ← dropPfx "\nTOTAL IMAGES: ".data r8
  let (n5, _) ← expectNum r9
  pure (n1, n2, n3, n4, n5)

/-- `re.search` with the five-line statistics pattern. -/
def searchStats : List Char → Option (Nat × Nat × Nat × Nat × Nat)
  | [] => none
  | c :: cs =>
    match matchStatsAt (c :: cs) with
    | some x => some x
    | none => searchStats cs

/-- The heading-block line loop. -/
def headingsOfLines (lines : List (List Char)) : List Heading :=
  lines.filterMap headingOfLine

/-- The paragraph-block line loop. -/
def parasOfLines (lines : List (List Char)) : List String :=
  lines.filterMap (fun l => (paraOfLine l).map (⟨·⟩))

/-- The link-block line loop. -/
def linksOfLines (lines : List (List Char)) : List Link :=
  lines.filterMap linkOfLine

def nlnl : List Char := ['\n', '\n']

def abstractTerms : List (List Char) := [nlnl, "HEADINGS:".data]
def headingsTerms : List (List Char) := [nlnl, "PARAGRAPHS:".data]
def paragraphsTerms : List (List Char) := [nlnl, "LINKS:".data, "META TAGS:".data]
def linksTerms : List (List Char) := [nlnl, "META TAGS:".data]
def metaTerms : List (List Char) := [nlnl, "FULL TEXT".data]

/-- `parse_scraped_content` from `preprocess_scraped_data.py`.  Every field
regex searches the whole input independently; the meta-tag loop shadows the
`content` variable, so the statistics pattern is searched in the remainder
of the last colon-containing meta line whenever the META TAGS block matched
and contained such a line. -/
def parseScrapedContent (content : String) : ParsedData :=
  let cl := content.data
  let url : String :=
    match matchLine "URL: ".data cl with
    | some g => ⟨pyStripL g⟩
    | none => ""
  let title : String :=
    match matchLine "Title: ".data cl with
    | some g => ⟨pyStripL g⟩
    | none => ""
  let abstract : String :=
    match extractBlock "ABSTRACT:\n".data abstractTerms cl with
    | some b => ⟨pyStripL b⟩
    | none => ""
  let headings : List Heading :=
    match extractBlock "HEADINGS:\n".data headingsTerms cl with
    | some b => headingsOfLines (splitNl (pyStripL b))
    | none => []
  let paragraphs : List String :=
    match extractBlock "PARAGRAPHS:\n".data paragraphsTerms cl with
    | some b => parasOfLines (splitNl (pyStripL b))
    | none => []
  let links : List Link :=
    match extractBlock "LINKS (first 20):\n".data linksTerms cl with
    | some b => linksOfLines (splitNl (pyStripL b))
    | none => []
  let metaRes :=
    match extractBlock "META TAGS:\n".data metaTerms cl with
    | some b => metaLinesFold (splitNl (pyStripL b)) [] none
    | none => ([], none)
  let statsSrc := metaRes.2.getD cl
  let stats : List (String × Nat) :=
    match searchStats statsSrc with
    | some n =>
      [("full_text_length", n.1), ("total_headings", n.2.1),
       ("total_paragraphs", n.2.2.1), ("total_links", n.2.2.2.1),
       ("total_images", n.2.2.2.2)]
    | none => []
  { url := url, title := title, abstract := abstract, headings := headings,
    paragraphs := paragraphs, links := links, meta_tags := metaRes.1,
    statistics := stats }

/-! ## Batch loops -/

/-- `scrape_website` seen from the batch loop: navigation, extraction and
the file writes may raise, modelled by the `fetch` oracle returning
`Except`; on success the extracted record is returned. -/
def scrapeWebsite (fetch : String → Except String ScrapedData) (url : String) :
    Except String ScrapedData :=
  fetch url

/-- `scrape_multiple_websites`: the loop body calls `scrape_website` with no
exception handler, so a raised failure propagates out of the whole loop (the
`Except` bind); the returned data dict is always non-empty, hence truthy, so
on every completed call the success counter increments and the failure
counter is never incremented.  Returns (results, successful, failed). -/
def scrapeMultipleWebsites (fetch : String → Except String ScrapedData) :
    List String → Except String (List ScrapedData × Nat × Nat)
  | [] => .ok ([], 0, 0)
  | u :: us => do
    let r ← scrapeWebsite fetch u
    let rest ← scrapeMultipleWebsites fetch us
    pure (r :: rest.1, rest.2.1 + 1, rest.2.2)

/-- `process_all_files` from `preprocess_scraped_data.py`: each file is
handled inside a per-file `try/except`; `read_txt_file` returns `""` on a
read failure, which is counted as failed and the loop continues; otherwise
the content is parsed, preprocessed and counted as processed.  Returns
(processed_count, failed_count, outputs). -/
def processAllFiles (read : String → String) (now : String) :
    List String → Nat × Nat × List (String × ParsedData × ProcessedStats)
  | [] => (0, 0, [])
  | f :: fs =>
    let rest := processAllFiles read now fs
    let content := read f
    if content = "" then (rest.1, rest.2.1 + 1, rest.2.2)
    else (rest.1 + 1, rest.2.1, (f, preprocessContent now (parseScrapedContent content)) :: rest.2.2)

/-! ## Auxiliary predicates and helpers for the verification -/

/-- Every whitespace character of `l` is a plain `' '`. -/
def onlyPlainSpace (l : List Char) : Prop :=
  ∀ c ∈ l, isSpaceChar c = true → c = ' '

/-- No two adjacent characters of `l` are both `' '`. -/
def noDbl (l : List Char) : Prop :=
  l.Chain' (fun a b => a ≠ ' ' ∨ b ≠ ' ')

/-- Drop trailing characters satisfying `isSpaceChar`. -/
def dropTrail (l : List Char) : List Char :=
  (l.reverse.dropWhile isSpaceChar).reverse

/-- No stop position of a block regex occurs among the first `k` positions
of `l` (the genuine stop may sit exactly at position `k`). -/
def stopFree (terms : List (List Char)) : List Char → Nat → Bool
  | _, 0 => true
  | [], _ + 1 => true
  | c :: cs, k + 1 => !(isStopHere terms (c :: cs)) && stopFree terms cs k

/-- The characters of one serialized meta line without its trailing newline. -/
def lineCore (kv : String × String) : List Char :=
  kv.1.data ++ ':' :: ' ' :: kv.2.data

/-- Join lines with single newline separators (no trailing newline). -/
def joinLinesNl : List (List Char) → List Char
  | [] => []
  | [l] => l
  | l :: ls => l ++ '\n' :: joinLinesNl ls

/-- The body the meta-block regex captures from a serialized dump:
the meta lines joined by single newlines. -/
def metaCore (d : ScrapedData) : List Char :=
  joinLinesNl (d.meta_tags.map lineCore)

/-! ## Concrete example records -/

/-- A record with two paragraphs and no other optional sections. -/
def recTwoParas : ScrapedData :=
  { url := "https://example.com", title := "Example Site", headings := [],
    paragraphs := ["First paragraph here", "Second paragraph here"], links := [],
    images := [], meta_tags := [], abstract := "", full_text := "Example full text" }

/-- A record with one meta tag and a well-formed statistics block. -/
def recWithMeta : ScrapedData :=
  { url := "https://example.com", title := "Example Site", headings := [],
    paragraphs := [], links := [], images := [],
    meta_tags := [("author", "bob")], abstract := "", full_text := "xyz" }

/-- A record with 25 paragraphs and 30 links. -/
def recBig : ScrapedData :=
  { url := "https://big.example", title := "Big", headings := [],
    paragraphs := List.replicate 25 "some paragraph text", links := List.replicate 30 ⟨"t", "h"⟩,
    images := [], meta_tags := [], abstract := "", full_text := "big" }

/-- A record whose meta key contains a colon. -/
def recColonKey : ScrapedData :=
  { url := "https://example.com", title := "T", headings := [], paragraphs := [],
    links := [], images := [], meta_tags := [("a:b", "c")], abstract := "",
    full_text := "x" }

/-- A record with two benign meta tags. -/
def recMetaGood : ScrapedData :=
  { url := "https://example.com", title := "T", headings := [], paragraphs := [],
    links := [], images := [], meta_tags := [("author", "bob"), ("desc", "hello world")],
    abstract := "", full_text := "x" }

/-- A record a batch fetch oracle can return. -/
def recFetched : ScrapedData :=
  { url := "https://b.example", title := "B", headings := [], paragraphs := [],
    links := [], images := [], meta_tags := [], abstract := "", full_text := "b" }

/-- A fetch oracle failing on the first URL of a batch and succeeding on the
second. -/
def fetchOracle : String → Except String ScrapedData := fun u =>
  if u = "https://b.example" then .ok recFetched else .error "net error"

/-- A read oracle with one unreadable file (read as `""`) and one valid
dump. -/
def readOracle : String → String := fun f =>
  if f = "good.txt" then
    "WEBSITE SCRAPED DATA\n" ++ "URL: https://g.example\nTitle: G\n\n" ++
    "FULL TEXT LENGTH: 1 characters\nTOTAL HEADINGS: 0\nTOTAL PARAGRAPHS: 0\nTOTAL LINKS: 0\nTOTAL IMAGES: 0\n"
  else ""

/-! ## Lemmas: the clean_text normalization pipeline -/

theorem collapseAux_onlyPlain (l : List Char) : ∀ b, onlyPlainSpace (collapseAux l b) := by
  induction l with
  | nil => intro b c hc; simp [collapseAux] at hc
  | cons c cs ih =>
    intro b x hx hsp
    by_cases h : isSpaceChar c = true
    · cases b with
      | true =>
        simp only [collapseAux, h, if_true] at hx
        exact ih true x hx hsp
      | false =>
        simp only [collapseAux, h, if_true] at hx
        rcases List.mem_cons.mp hx with h1 | h1
        · exact h1
        · exact ih true x h1 hsp
    · simp only [collapseAux, h, if_false] at hx
      rcases List.mem_cons.mp hx with h1 | h1
      · subst h1; exact absurd hsp h
      · exact ih false x h1 hsp

theorem collapseAux_mem (l : List Char) : ∀ b, ∀ x ∈ collapseAux l b, x = ' ' ∨ x ∈ l := by
  induction l with
  | nil => intro b x hx; simp [collapseAux] at hx
  | cons c cs ih =>
    intro b x hx
    by_cases h : isSpaceChar c = true
    · cases b with
      | true =>
        simp only [collapseAux, h, if_true] at hx
        rcases ih true x hx with h1 | h1
        · exact Or.inl h1
        · exact Or.inr (List.mem_cons_of_mem c h1)
      | false =>
        simp only [collapseAux, h, if_true] at hx
        rcases List.mem_cons.mp hx with h1 | h1
        · exact Or.inl h1
        · rcases ih true x h1 with h2 | h2
          · exact Or.inl h2
          · exact Or.inr (List.mem_cons_of_mem c h2)
    · simp only [collapseAux, h, if_false] at hx
      rcases List.mem_cons.mp hx with h1 | h1
      · exact Or.inr (h1 ▸ List.mem_cons_self c cs)
      · rcases ih false x h1 with h2 | h2
        · exact Or.inl h2
        · exact Or.inr (List.mem_cons_of_mem c h2)

theorem collapseAux_head_true (l : List Char) : (collapseAux l true).head? ≠ some ' ' := by
  induction l with
  | nil => simp [collapseAux]
  | cons c cs ih =>
    by_cases h : isSpaceChar c = true
    · simpa [collapseAux, h] using ih
    · intro hc
      rw [show collapseAux (c :: cs) true = c :: collapseAux cs false from by
        simp [collapseAux, h]] at hc
      simp only [List.head?_cons, Option.some.injEq] at hc
      subst hc
      exact h (by decide)

theorem collapseAux_noDbl (l : List Char) : ∀ b, noDbl (collapseAux l b) := by
  induction l with
  | nil => intro b; simp [collapseAux, noDbl]
  | cons c cs ih =>
    intro b
    by_cases h : isSpaceChar c = true
    · cases b with
      | true => simpa only [collapseAux, h, if_true] using ih true
      | false =>
        simp only [collapseAux, h, if_true]
        refine List.chain'_cons'.mpr ⟨?_, ih true⟩
        intro y hy
        right
        intro hy'
        exact collapseAux_head_true cs (by rw [hy, hy'])
    · simp only [collapseAux, h, if_false]
      refine List.chain'_cons'.mpr ⟨?_, ih false⟩
      intro y _
      left
      intro hc
      subst hc
      exact h (by decide)

theorem collapseAux_fix (l : List Char) (h1 : onlyPlainSpace l) (h2 : noDbl l) :
    collapseAux l false = l ∧ ∀ d ds, l = d :: ds → d ≠ ' ' → collapseAux l true = l := by
  induction l with
  | nil => exact ⟨rfl, fun d ds h => by simp at h⟩
  | cons c cs ih =>
    have h1' : onlyPlainSpace cs := fun x hx => h1 x (List.mem_cons_of_mem c hx)
    have h2' : noDbl cs := (List.chain'_cons'.mp h2).2
    obtain ⟨ihf, iht⟩ := ih h1' h2'
    constructor
    · by_cases hsp : isSpaceChar c = true
      · have hc : c = ' ' := h1 c (List.mem_cons_self c cs) hsp
        subst hc
        have hrest : collapseAux cs true = cs := by
          cases cs with
          | nil => rfl
          | cons d ds =>
            have hd : d ≠ ' ' := by
              rcases (List.chain'_cons'.mp h2).1 d (by simp) with h | h
              · exact absurd rfl h
              · exact h
            exact iht d ds rfl hd
        simp [collapseAux, hsp, hrest]
      · simp [collapseAux, hsp, ihf]
    · intro d ds hl hd
      injection hl with he1 he2
      subst he1
      subst he2
      have hsp : isSpaceChar c = false := by
        cases hsp' : isSpaceChar c
        · rfl
        · exact absurd (h1 c (List.mem_cons_self c cs) hsp') hd
      simp [collapseAux, hsp, ihf]

theorem mem_dropTrail {l : List Char} {c : Char} (h : c ∈ dropTrail l) : c ∈ l := by
  unfold dropTrail at h
  rw [List.mem_reverse] at h
  have := (List.dropWhile_suffix isSpaceChar (l := l.reverse)).sublist.mem h
  rwa [List.mem_reverse] at this

theorem mem_pyStripL {l : List Char} {c : Char} (h : c ∈ pyStripL l) : c ∈ l := by
  have h' : c ∈ dropTrail (l.dropWhile isSpaceChar) := h
  exact (List.dropWhile_suffix isSpaceChar (l := l)).sublist.mem (mem_dropTrail h')

theorem noDbl_suffix {l l' : List Char} (h : noDbl l) (hs : l' <:+ l) : noDbl l' :=
  List.Chain'.suffix h hs

theorem noDbl_reverse {l : List Char} (h : noDbl l) : noDbl l.reverse := by
  unfold noDbl at h ⊢
  rw [List.chain'_reverse]
  refine List.Chain'.imp ?_ h
  intro a b hab
  exact hab.symm

theorem noDbl_dropTrail {l : List Char} (h : noDbl l) : noDbl (dropTrail l) := by
  unfold dropTrail
  exact noDbl_reverse (noDbl_suffix (noDbl_reverse h) (List.dropWhile_suffix isSpaceChar))

theorem noDbl_pyStripL (l : List Char) (h : noDbl l) : noDbl (pyStripL l) :=
  noDbl_dropTrail (noDbl_suffix h (List.dropWhile_suffix isSpaceChar))

theorem head?_dropWhile_space {l : List Char} {c : Char}
    (h : (l.dropWhile isSpaceChar).head? = some c) : isSpaceChar c = false := by
  have := List.head?_dropWhile_not isSpaceChar l
  rw [h] at this
  exact this

theorem dropWhile_eq_self_of_head {l : List Char}
    (h : ∀ c, l.head? = some c → isSpaceChar c = false) :
    l.dropWhile isSpaceChar = l := by
  cases l with
  | nil => rfl
  | cons c cs => rw [List.dropWhile_cons_of_neg (by simp [h c rfl])]

theorem dropTrail_eq_self_of_getLast {l : List Char}
    (h : ∀ c, l.getLast? = some c → isSpaceChar c = false) :
    dropTrail l = l := by
  unfold dropTrail
  rw [dropWhile_eq_self_of_head, List.reverse_reverse]
  intro c hc
  rw [List.head?_reverse] at hc
  exact h c hc

theorem getLast?_dropTrail_space {l : List Char} {c : Char}
    (h : (dropTrail l).getLast? = some c) : isSpaceChar c = false := by
  unfold dropTrail at h
  rw [List.getLast?_reverse] at h
  exact head?_dropWhile_space h

theorem dropTrail_pfx (l : List Char) : dropTrail l <+: l := by
  unfold dropTrail
  have h := List.dropWhile_suffix isSpaceChar (l := l.reverse)
  have h2 : (List.dropWhile isSpaceChar l.reverse).reverse <+: l.reverse.reverse :=
    List.reverse_prefix.mpr h
  rwa [List.reverse_reverse] at h2

theorem head?_of_pfx {s z : List Char} (h : s <+: z) (hne : s ≠ []) : s.head? = z.head? := by
  obtain ⟨r, rfl⟩ := h
  cases s with
  | nil => exact absurd rfl hne
  | cons c cs => rfl

theorem head?_pyStripL_space {l : List Char} {c : Char}
    (h : (pyStripL l).head? = some c) : isSpaceChar c = false := by
  have hpfx : pyStripL l <+: l.dropWhile isSpaceChar := dropTrail_pfx _
  have hne : pyStripL l ≠ [] := by
    intro he
    rw [he] at h
    exact Option.noConfusion h
  rw [head?_of_pfx hpfx hne] at h
  exact head?_dropWhile_space h

theorem getLast?_pyStripL_space {l : List Char} {c : Char}
    (h : (pyStripL l).getLast? = some c) : isSpaceChar c = false :=
  getLast?_dropTrail_space h

theorem pyStripL_fix {l : List Char}
    (hh : ∀ c, l.head? = some c → isSpaceChar c = false)
    (hl : ∀ c, l.getLast? = some c → isSpaceChar c = false) :
    pyStripL l = l := by
  unfold pyStripL
  have h1 : l.dropWhile isSpaceChar = l := dropWhile_eq_self_of_head hh
  rw [h1]
  have h2 : dropTrail l = l := dropTrail_eq_self_of_getLast hl
  exact h2

theorem pyStripL_idem (l : List Char) : pyStripL (pyStripL l) = pyStripL l := by
  apply pyStripL_fix
  · exact fun c hc => head?_pyStripL_space hc
  · exact fun c hc => getLast?_pyStripL_space hc

theorem cleanList_canon (l : List Char) :
    onlyPlainSpace (cleanList l) ∧ noDbl (cleanList l) ∧
    ∀ c ∈ cleanList l, allowedChar c = true := by
  unfold cleanList
  refine ⟨?_, ?_, ?_⟩
  · intro c hc
    exact collapseAux_onlyPlain _ false c (mem_pyStripL hc)
  · exact noDbl_pyStripL _ (collapseAux_noDbl _ false)
  · intro c hc
    rcases collapseAux_mem _ false c (mem_pyStripL hc) with h | h
    · subst h; decide
    · exact (List.mem_filter.mp h).2

theorem cleanList_fix {l : List Char} (h1 : onlyPlainSpace l) (h2 : noDbl l)
    (h3 : ∀ c ∈ l, allowedChar c = true) (h4 : pyStripL l = l) :
    cleanList l = l := by
  unfold cleanList
  have hc : collapseWs l = l := (collapseAux_fix l h1 h2).1
  rw [hc, List.filter_eq_self.mpr h3, hc, h4]

theorem cleanList_idem (l : List Char) : cleanList (cleanList l) = cleanList l := by
  obtain ⟨h1, h2, h3⟩ := cleanList_canon l
  apply cleanList_fix h1 h2 h3
  unfold cleanList
  exact pyStripL_idem _

theorem String.data_mk (l : List Char) : (⟨l⟩ : String).data = l := rfl

theorem cleanText_idem (s : String) : cleanText (cleanText s) = cleanText s := by
  unfold cleanText
  by_cases h : s.data = []
  · simp [h]
  · simp only [h, if_false, String.data_mk]
    by_cases h2 : cleanList s.data = []
    · simp only [h2, if_true]
    · simp only [h2, if_false]
      rw [cleanList_idem]

theorem cleanHeadings_idem (hs : List Heading) :
    cleanHeadings (cleanHeadings hs) = cleanHeadings hs := by
  unfold cleanHeadings
  rw [List.filterMap_filterMap]
  congr 1
  funext x
  by_cases hc : cleanText x.text = ""
  · simp [hc]
  · simp [hc, cleanText_idem]

theorem cleanLinks_idem (ls : List Link) :
    cleanLinks (cleanLinks ls) = cleanLinks ls := by
  unfold cleanLinks
  rw [List.filterMap_filterMap]
  congr 1
  funext x
  by_cases hc : cleanText x.text = ""
  · simp [hc]
  · simp [hc, cleanText_idem]

theorem cleanParagraphs_mem : ∀ (ps seen : List String), ∀ x ∈ cleanParagraphs ps seen,
    cleanText x = x ∧ 10 < x.length ∧ x ∉ seen := by
  intro ps
  induction ps with
  | nil => intro seen x hx; simp [cleanParagraphs] at hx
  | cons p rest ih =>
    intro seen x hx
    simp only [cleanParagraphs] at hx
    by_cases hcond : cleanText p ≠ "" ∧ 10 < (cleanText p).length ∧ cleanText p ∉ seen
    · rw [if_pos hcond] at hx
      rcases List.mem_cons.mp hx with h1 | h1
      · subst h1
        exact ⟨cleanText_idem p, hcond.2.1, hcond.2.2⟩
      · obtain ⟨a1, a2, a3⟩ := ih (cleanText p :: seen) x h1
        exact ⟨a1, a2, fun hmem => a3 (List.mem_cons_of_mem _ hmem)⟩
    · rw [if_neg hcond] at hx
      exact ih seen x hx

theorem cleanParagraphs_nodup : ∀ (ps seen : List String), (cleanParagraphs ps seen).Nodup := by
  intro ps
  induction ps with
  | nil => intro seen; simp [cleanParagraphs]
  | cons p rest ih =>
    intro seen
    simp only [cleanParagraphs]
    split
    · refine List.nodup_cons.mpr ⟨?_, ih _⟩
      intro hmem
      exact (cleanParagraphs_mem rest (cleanText p :: seen) _ hmem).2.2
        (List.mem_cons_self _ _)
    · exact ih seen

theorem cleanParagraphs_fix : ∀ (l seen : List String),
    (∀ x ∈ l, cleanText x = x ∧ 10 < x.length) → l.Nodup → (∀ x ∈ l, x ∉ seen) →
    cleanParagraphs l seen = l := by
  intro l
  induction l with
  | nil => intro seen _ _ _; rfl
  | cons p rest ih =>
    intro seen hprop hnd hdisj
    obtain ⟨hcp, hlen⟩ := hprop p (List.mem_cons_self p rest)
    have hne : p ≠ "" := by
      intro he
      rw [he] at hlen
      simp at hlen
    simp only [cleanParagraphs, hcp]
    rw [if_pos ⟨hne, hlen, hdisj p (List.mem_cons_self p rest)⟩]
    congr 1
    apply ih
    · intro x hx; exact hprop x (List.mem_cons_of_mem p hx)
    · exact (List.nodup_cons.mp hnd).2
    · intro x hx hmem
      rcases List.mem_cons.mp hmem with h1 | h1
      · exact (List.nodup_cons.mp hnd).1 (h1 ▸ hx)
      · exact hdisj x (List.mem_cons_of_mem p hx) h1

theorem cleanParagraphs_idem (ps : List String) :
    cleanParagraphs (cleanParagraphs ps []) [] = cleanParagraphs ps [] := by
  apply cleanParagraphs_fix
  · intro x hx
    have h := cleanParagraphs_mem ps [] x hx
    exact ⟨h.1, h.2.1⟩
  · exact cleanParagraphs_nodup ps []
  · intro x _ h
    simp at h

theorem cleanLinks_href_sublist (ls : List Link) :
    ((cleanLinks ls).map Link.href).Sublist (ls.map Link.href) := by
  induction ls with
  | nil => simp [cleanLinks]
  | cons l rest ih =>
    unfold cleanLinks
    by_cases h : cleanText l.text = ""
    · rw [List.filterMap_cons_none (by simp [h])]
      exact ih.cons _
    · rw [List.filterMap_cons_some (b := ⟨cleanText l.text, l.href⟩) (by simp [h]),
        List.map_cons, List.map_cons]
      exact ih.cons₂ _

theorem cleanHeadings_level_sublist (hs : List Heading) :
    ((cleanHeadings hs).map Heading.level).Sublist (hs.map Heading.level) := by
  induction hs with
  | nil => simp [cleanHeadings]
  | cons h rest ih =>
    unfold cleanHeadings
    by_cases hc : cleanText h.text = ""
    · rw [List.filterMap_cons_none (by simp [hc])]
      exact ih.cons _
    · rw [List.filterMap_cons_some (b := ⟨h.level, cleanText h.text⟩) (by simp [hc]),
        List.map_cons, List.map_cons]
      exact ih.cons₂ _

theorem cleanLinks_mem (ls : List Link) :
    ∀ l ∈ cleanLinks ls, ∃ l₀ ∈ ls, l.href = l₀.href ∧ l.text = cleanText l₀.text := by
  intro l hl
  unfold cleanLinks at hl
  rw [List.mem_filterMap] at hl
  obtain ⟨a, ha, hfa⟩ := hl
  by_cases h : cleanText a.text = ""
  · simp [h] at hfa
  · simp only [h, ne_eq, not_false_eq_true, if_true, Option.some.injEq] at hfa
    exact ⟨a, ha, by rw [← hfa], by rw [← hfa]⟩

theorem cleanHeadings_mem (hs : List Heading) :
    ∀ h ∈ cleanHeadings hs, ∃ h₀ ∈ hs, h.level = h₀.level ∧ h.text = cleanText h₀.text := by
  intro h hh
  unfold cleanHeadings at hh
  rw [List.mem_filterMap] at hh
  obtain ⟨a, ha, hfa⟩ := hh
  by_cases hc : cleanText a.text = ""
  · simp [hc] at hfa
  · simp only [hc, ne_eq, not_false_eq_true, if_true, Option.some.injEq] at hfa
    exact ⟨a, ha, by rw [← hfa], by rw [← hfa]⟩

theorem cleanParagraphs_from : ∀ (ps seen : List String), ∀ x ∈ cleanParagraphs ps seen,
    ∃ p₀ ∈ ps, x = cleanText p₀ := by
  intro ps
  induction ps with
  | nil => intro seen x hx; simp [cleanParagraphs] at hx
  | cons p rest ih =>
    intro seen x hx
    simp only [cleanParagraphs] at hx
    by_cases hcond : cleanText p ≠ "" ∧ 10 < (cleanText p).length ∧ cleanText p ∉ seen
    · rw [if_pos hcond] at hx
      rcases List.mem_cons.mp hx with h1 | h1
      · exact ⟨p, List.mem_cons_self p rest, h1⟩
      · obtain ⟨p₀, hp₀, he⟩ := ih _ x h1
        exact ⟨p₀, List.mem_cons_of_mem p hp₀, he⟩
    · rw [if_neg hcond] at hx
      obtain ⟨p₀, hp₀, he⟩ := ih seen x hx
      exact ⟨p₀, List.mem_cons_of_mem p hp₀, he⟩

/-! ## Lemmas: block extraction -/

theorem dropPfx_append : ∀ (p r : List Char), dropPfx p (p ++ r) = some r := by
  intro p
  induction p with
  | nil => intro r; rfl
  | cons c cs ih =>
    intro r
    show dropPfx (c :: cs) (c :: (cs ++ r)) = some r
    simp only [dropPfx, if_pos rfl]
    exact ih r

theorem dropSub_self : ∀ (lab rest : List Char), dropSub lab (lab ++ rest) = some rest := by
  intro lab rest
  cases lab with
  | nil =>
    cases rest with
    | nil => rfl
    | cons c cs => simp [dropSub, dropPfx]
  | cons c cs =>
    have h := dropPfx_append (c :: cs) rest
    simp only [List.cons_append] at h
    show dropSub (c :: cs) (c :: (cs ++ rest)) = some rest
    simp only [dropSub, h]

theorem stopAt_append (terms : List (List Char)) :
    ∀ (body tail : List Char), stopFree terms (body ++ tail) body.length = true →
    stopAt terms (body ++ tail) = body ++ stopAt terms tail := by
  intro body
  induction body with
  | nil => intro tail _; rfl
  | cons c cs ih =>
    intro tail hfree
    have hfree' : stopFree terms (c :: (cs ++ tail)) (cs.length + 1) = true := by
      simpa using hfree
    rw [stopFree, Bool.and_eq_true, Bool.not_eq_true'] at hfree'
    obtain ⟨hstop, hrest⟩ := hfree'
    show stopAt terms (c :: (cs ++ tail)) = c :: (cs ++ stopAt terms tail)
    rw [stopAt, if_neg (by rw [hstop]; exact Bool.false_ne_true), ih tail hrest]

theorem stopAt_term_head (terms : List (List Char)) (t rest : List Char)
    (ht : t ∈ terms) (hne : t ≠ []) : stopAt terms (t ++ rest) = [] := by
  cases t with
  | nil => exact absurd rfl hne
  | cons c cs =>
    have hstop : isStopHere terms (c :: (cs ++ rest)) = true := by
      simp only [isStopHere, Bool.or_eq_true, List.any_eq_true,
        List.isPrefixOf_iff_prefix]
      left
      exact ⟨c :: cs, ht, ⟨rest, by simp⟩⟩
    show stopAt terms (c :: (cs ++ rest)) = []
    rw [stopAt, if_pos hstop]

theorem extractBlock_blank (lab body rest : List Char) (terms : List (List Char))
    (hmem : nlnl ∈ terms)
    (hfree : stopFree terms (body ++ '\n' :: '\n' :: rest) body.length = true) :
    extractBlock lab terms (lab ++ body ++ '\n' :: '\n' :: rest) = some body := by
  unfold extractBlock
  rw [List.append_assoc, dropSub_self, Option.map_some']
  rw [stopAt_append terms body ('\n' :: '\n' :: rest) hfree]
  rw [show ('\n' :: '\n' :: rest : List Char) = nlnl ++ rest from rfl,
    stopAt_term_head terms nlnl rest hmem (by decide), List.append_nil]

theorem extractBlock_term (lab body rest : List Char) (terms : List (List Char))
    (t : List Char) (ht : t ∈ terms) (hne : t ≠ [])
    (hfree : stopFree terms (body ++ t ++ rest) body.length = true) :
    extractBlock lab terms (lab ++ body ++ t ++ rest) = some body := by
  unfold extractBlock
  rw [show lab ++ body ++ t ++ rest = lab ++ (body ++ (t ++ rest)) from by simp]
  rw [dropSub_self, Option.map_some']
  have hfree' : stopFree terms (body ++ (t ++ rest)) body.length = true := by
    simpa using hfree
  rw [stopAt_append terms body (t ++ rest) hfree',
    stopAt_term_head terms t rest ht hne, List.append_nil]

theorem extractBlock_end (lab body : List Char) (terms : List (List Char))
    (hfree : stopFree terms body body.length = true) :
    extractBlock lab terms (lab ++ body) = some body := by
  unfold extractBlock
  rw [dropSub_self, Option.map_some']
  have h := stopAt_append terms body [] (by simpa using hfree)
  simpa [stopAt] using h

/-- The unanchored single-line pattern finds a label in the middle of a
line: with the concrete prefix `"xx "` before the label, the match succeeds
at the mid-line occurrence and captures the rest of the line. -/
theorem matchLine_mid (val rest : List Char) (hne : val ≠ []) (hnl : '\n' ∉ val) :
    matchLine "URL: ".data ("xx URL: ".data ++ val ++ '\n' :: rest) = some val := by
  cases val with
  | nil => exact absurd rfl hne
  | cons v vs =>
    have hv : v ≠ '\n' := fun h => hnl (h ▸ List.mem_cons_self v vs)
    have hstep : matchLine "URL: ".data ("xx URL: ".data ++ (v :: vs) ++ '\n' :: rest)
        = if v ≠ '\n'
          then some ((v :: (vs ++ '\n' :: rest)).takeWhile (fun x => x ≠ '\n'))
          else matchLine "URL: ".data
            ('R' :: 'L' :: ':' :: ' ' :: (v :: (vs ++ '\n' :: rest))) := rfl
    rw [hstep, if_pos hv, Option.some.injEq]
    rw [List.takeWhile_cons_of_pos (by simp [hv])]
    congr 1
    rw [List.takeWhile_append_of_pos (by
      intro a ha
      simp only [ne_eq, decide_not, Bool.not_eq_eq_eq_not, Bool.not_true, decide_eq_false_iff_not]
      exact fun he => hnl (he ▸ List.mem_cons_of_mem v ha))]
    rw [List.takeWhile_cons_of_neg (by simp)]
    simp

theorem consHead_ne_nil (c : Char) (ls : List (List Char)) : consHead c ls ≠ [] := by
  cases ls <;> simp [consHead]

theorem splitArrow_ne_nil : ∀ (l : List Char), splitArrow l ≠ [] := by
  intro l
  induction l with
  | nil => simp [splitArrow]
  | cons c cs ih =>
    cases cs with
    | nil => simp [splitArrow]
    | cons d rest =>
      simp only [splitArrow]
      split
      · simp
      · exact consHead_ne_nil c _

theorem splitArrow_append : ∀ (a rest : List Char), occursL ['-', '>'] a = false →
    splitArrow (a ++ '-' :: '>' :: rest) = a :: splitArrow rest := by
  intro a
  induction a with
  | nil =>
    intro rest _
    show splitArrow ('-' :: '>' :: rest) = [] :: splitArrow rest
    simp [splitArrow]
  | cons x xs ih =>
    intro rest hocc
    rw [occursL, Bool.or_eq_false_iff] at hocc
    obtain ⟨hnp, hocc2⟩ := hocc
    cases xs with
    | nil =>
      show splitArrow (x :: '-' :: '>' :: rest) = [x] :: splitArrow rest
      have hx2 : ¬(x = '-' ∧ '-' = '>') := fun h => absurd h.2 (by decide)
      simp only [splitArrow, if_neg hx2]
      simp [splitArrow, consHead]
    | cons y ys =>
      show splitArrow (x :: (y :: ys ++ '-' :: '>' :: rest)) = (x :: y :: ys) :: splitArrow rest
      have hxy : ¬(x = '-' ∧ y = '>') := by
        rintro ⟨h1, h2⟩
        subst h1
        subst h2
        simp [List.isPrefixOf] at hnp
      rw [show (x :: (y :: ys ++ '-' :: '>' :: rest) : List Char)
          = x :: y :: (ys ++ '-' :: '>' :: rest) from rfl]
      simp only [splitArrow, if_neg hxy]
      rw [show (y :: (ys ++ '-' :: '>' :: rest) : List Char)
          = (y :: ys) ++ '-' :: '>' :: rest from rfl]
      rw [ih rest hocc2]
      rfl

theorem linkOfLine_two_seps (a b c : List Char)
    (ha : occursL ['-', '>'] a = false) (hb : occursL ['-', '>'] b = false) :
    linkOfLine (a ++ '-' :: '>' :: b ++ '-' :: '>' :: c) = none := by
  unfold linkOfLine
  rw [show (a ++ '-' :: '>' :: b ++ '-' :: '>' :: c : List Char)
      = a ++ '-' :: '>' :: (b ++ '-' :: '>' :: c) from by simp]
  rw [splitArrow_append a _ ha, splitArrow_append b c hb]
  cases hsp : splitArrow c with
  | nil => exact absurd hsp (splitArrow_ne_nil c)
  | cons z zs => rfl

theorem paraEntriesFrom_length : ∀ (i : Nat) (ps : List String),
    (paraEntriesFrom i ps).length = ps.length := by
  intro i ps
  induction ps generalizing i with
  | nil => rfl
  | cons p rest ih => simp [paraEntriesFrom, ih]

theorem linkEntriesFrom_length : ∀ (i : Nat) (ls : List Link),
    (linkEntriesFrom i ls).length = ls.length := by
  intro i ls
  induction ls generalizing i with
  | nil => rfl
  | cons l rest ih => simp [linkEntriesFrom, ih]

theorem occursL_append_left (pat : List Char) :
    ∀ (x y : List Char), occursL pat y = true → occursL pat (x ++ y) = true := by
  intro x
  induction x with
  | nil => intro y h; simpa using h
  | cons c cs ih =>
    intro y h
    show occursL pat (c :: (cs ++ y)) = true
    rw [occursL, Bool.or_eq_true]
    exact Or.inr (ih y h)

theorem occursL_append_self (pat z : List Char) (hne : pat ≠ []) :
    occursL pat (pat ++ z) = true := by
  cases pat with
  | nil => exact absurd rfl hne
  | cons c cs =>
    show occursL (c :: cs) (c :: (cs ++ z)) = true
    rw [occursL, Bool.or_eq_true]
    left
    exact List.isPrefixOf_iff_prefix.mpr ⟨z, by simp⟩

theorem occursL_label_num (lab num : String) (n : Nat) (hn : toString n = num)
    (hne : (lab ++ num ++ "\n").data ≠ []) (z : List Char) :
    occursL (lab ++ num ++ "\n").data
      (lab.data ++ ((toString n).data ++ ("\n".data ++ z))) = true := by
  rw [hn]
  rw [show lab.data ++ (num.data ++ ("\n".data ++ z)) = (lab ++ num ++ "\n").data ++ z from by
    simp [String.data_append]]
  exact occursL_append_self _ _ hne

/-! ## Lemmas: first-occurrence search and the meta block -/

theorem dropPfx_eq_some : ∀ (p l r : List Char), dropPfx p l = some r ↔ l = p ++ r := by
  intro p
  induction p with
  | nil =>
    intro l r
    simp [dropPfx]
  | cons c cs ih =>
    intro l r
    cases l with
    | nil => simp [dropPfx]
    | cons d ds =>
      by_cases h : c = d
      · subst h
        rw [show dropPfx (c :: cs) (c :: ds) = dropPfx cs ds from by simp [dropPfx]]
        rw [ih ds r]
        constructor
        · intro h2; rw [h2]; rfl
        · intro h2
          rw [show (c :: cs) ++ r = c :: (cs ++ r) from rfl] at h2
          injection h2
      · rw [show dropPfx (c :: cs) (d :: ds) = none from by simp [dropPfx, h]]
        constructor
        · intro hn; exact Option.noConfusion hn
        · intro he
          rw [show (c :: cs) ++ r = c :: (cs ++ r) from rfl] at he
          injection he with h1 _
          exact absurd h1.symm h

theorem occursL_mono_right (pat : List Char) :
    ∀ (x y : List Char), occursL pat x = true → occursL pat (x ++ y) = true := by
  intro x
  induction x with
  | nil =>
    intro y h
    simp [occursL] at h
    subst h
    cases y with
    | nil => rfl
    | cons c cs =>
      rw [show ([] : List Char) ++ c :: cs = c :: cs from rfl, occursL, Bool.or_eq_true]
      left
      exact List.isPrefixOf_iff_prefix.mpr List.nil_prefix
  | cons c cs ih =>
    intro y h
    rw [occursL, Bool.or_eq_true] at h
    show occursL pat (c :: (cs ++ y)) = true
    rw [occursL, Bool.or_eq_true]
    rcases h with h | h
    · left
      rw [List.isPrefixOf_iff_prefix] at h ⊢
      exact h.trans (by rw [show c :: (cs ++ y) = (c :: cs) ++ y from rfl]; exact List.prefix_append _ _)
    · exact Or.inr (ih y h)

theorem pfx_append_cases {α : Type} : ∀ {p a b : List α}, p <+: a ++ b →
    p <+: a ∨ ∃ t, p = a ++ t ∧ t <+: b := by
  intro p a
  induction a generalizing p with
  | nil =>
    intro b h
    exact Or.inr ⟨p, rfl, h⟩
  | cons x xs ih =>
    intro b h
    cases p with
    | nil => exact Or.inl List.nil_prefix
    | cons y ys =>
      rw [List.cons_append, List.cons_prefix_cons] at h
      obtain ⟨rfl, h2⟩ := h
      rcases ih h2 with h3 | ⟨t, rfl, h4⟩
      · exact Or.inl (List.cons_prefix_cons.mpr ⟨rfl, h3⟩)
      · exact Or.inr ⟨t, rfl, h4⟩

theorem pfx_of_append_le {α : Type} : ∀ {t a b : List α}, t <+: a ++ b →
    t.length ≤ a.length → t <+: a := by
  intro t a b h hlen
  rcases pfx_append_cases h with h1 | ⟨s, rfl, _⟩
  · exact h1
  · rw [List.length_append] at hlen
    have hs : s.length = 0 := by omega
    rw [List.length_eq_zero] at hs
    subst hs
    simp

theorem dropSub_append (pat : List Char) :
    ∀ (X Z : List Char), occursL pat (X ++ pat.dropLast) = false →
    dropSub pat (X ++ (pat ++ Z)) = some Z := by
  intro X
  induction X with
  | nil => intro Z _; rw [List.nil_append]; exact dropSub_self pat Z
  | cons c X' ih =>
    intro Z hocc
    rw [List.cons_append, occursL, Bool.or_eq_false_iff] at hocc
    obtain ⟨hnp, hocc'⟩ := hocc
    have hnone : dropPfx pat (c :: (X' ++ (pat ++ Z))) = none := by
      cases hdp : dropPfx pat (c :: (X' ++ (pat ++ Z))) with
      | none => rfl
      | some r =>
        exfalso
        rw [dropPfx_eq_some] at hdp
        have hpfx : pat <+: (c :: X') ++ (pat ++ Z) := by
          rw [List.cons_append, hdp]
          exact List.prefix_append _ _
        have hfalse : pat <+: c :: (X' ++ pat.dropLast) := by
          rcases pfx_append_cases hpfx with h | ⟨t, ht, htp⟩
          · have h2 : pat <+: (c :: X') ++ pat.dropLast := h.trans (List.prefix_append _ _)
            rwa [List.cons_append] at h2
          · have hlen : t.length ≤ pat.length - 1 := by
              have h1 : pat.length = (c :: X').length + t.length := by
                rw [ht, List.length_append]
              have h2 : 1 ≤ (c :: X').length := by simp
              omega
            have htle : t.length ≤ pat.length := le_trans hlen (Nat.sub_le _ _)
            have htpa : t <+: pat := pfx_of_append_le htp htle
            have htpat : t <+: pat.dropLast := by
              rw [List.dropLast_eq_take, List.prefix_take_iff]
              exact ⟨htpa, hlen⟩
            have hstep : (c :: X') ++ t <+: (c :: X') ++ pat.dropLast :=
              (List.prefix_append_right_inj (c :: X')).mpr htpat
            rw [← ht] at hstep
            rwa [List.cons_append] at hstep
        have hcontra : pat.isPrefixOf (c :: (X' ++ pat.dropLast)) = true :=
          List.isPrefixOf_iff_prefix.mpr hfalse
        rw [hnp] at hcontra
        exact Bool.false_ne_true hcontra
    show dropSub pat (c :: (X' ++ (pat ++ Z))) = some Z
    rw [dropSub, hnone]
    exact ih Z hocc'

theorem metaLine_data (kv : String × String) :
    (metaLine kv).data = lineCore kv ++ ['\n'] := by
  show ((kv.1 ++ ": " ++ kv.2 ++ "\n")).data = (kv.1.data ++ ':' :: ' ' :: kv.2.data) ++ ['\n']
  simp only [String.data_append, List.append_assoc]
  simp

theorem concatMeta_data : ∀ (kvs : List (String × String)), kvs ≠ [] →
    (concatStrs (kvs.map metaLine)).data = joinLinesNl (kvs.map lineCore) ++ ['\n'] := by
  intro kvs
  induction kvs with
  | nil => intro h; exact absurd rfl h
  | cons kv rest ih =>
    intro _
    cases rest with
    | nil =>
      show (metaLine kv ++ concatStrs []).data = joinLinesNl [lineCore kv] ++ ['\n']
      rw [show concatStrs [] = "" from rfl]
      rw [String.data_append, show ("" : String).data = [] from rfl, List.append_nil]
      rw [metaLine_data]
      rfl
    | cons kv2 rest2 =>
      show (metaLine kv ++ concatStrs ((kv2 :: rest2).map metaLine)).data
          = joinLinesNl (lineCore kv :: lineCore kv2 :: rest2.map lineCore) ++ ['\n']
      rw [String.data_append, ih (by simp), metaLine_data]
      rw [show joinLinesNl (lineCore kv :: lineCore kv2 :: rest2.map lineCore)
          = lineCore kv ++ '\n' :: joinLinesNl (lineCore kv2 :: rest2.map lineCore) from by
        simp [joinLinesNl]]
      simp

theorem head?_append_left {α : Type} {l r : List α} (h : l ≠ []) :
    (l ++ r).head? = l.head? := by
  cases l with
  | nil => exact absurd rfl h
  | cons c cs => rfl

theorem lineCore_ne_nil (kv : String × String) : lineCore kv ≠ [] := by
  unfold lineCore
  cases h : kv.1.data with
  | nil => simp
  | cons c cs => simp

theorem joinLinesNl_ne_nil (l : List Char) (ls : List (List Char)) (h : l ≠ []) :
    joinLinesNl (l :: ls) ≠ [] := by
  cases ls with
  | nil => exact h
  | cons l2 ls2 =>
    rw [show joinLinesNl (l :: l2 :: ls2) = l ++ '\n' :: joinLinesNl (l2 :: ls2) from by
      simp [joinLinesNl]]
    simp

theorem joinLinesNl_head (l : List Char) (ls : List (List Char)) (h : l ≠ []) :
    (joinLinesNl (l :: ls)).head? = l.head? := by
  cases ls with
  | nil => rfl
  | cons l2 ls2 =>
    rw [show joinLinesNl (l :: l2 :: ls2) = l ++ '\n' :: joinLinesNl (l2 :: ls2) from by
      simp [joinLinesNl]]
    exact head?_append_left h

theorem joinLinesNl_getLast : ∀ (l : List Char) (ls : List (List Char)), ls ≠ [] →
    (∀ x ∈ ls, x ≠ []) → (joinLinesNl (l :: ls)).getLast? = (joinLinesNl ls).getLast? := by
  intro l ls h hne
  cases ls with
  | nil => exact absurd rfl h
  | cons l2 ls2 =>
    rw [show joinLinesNl (l :: l2 :: ls2) = l ++ '\n' :: joinLinesNl (l2 :: ls2) from by
      simp [joinLinesNl]]
    rw [List.getLast?_append]
    rw [show ('\n' :: joinLinesNl (l2 :: ls2)).getLast?
        = (joinLinesNl (l2 :: ls2)).getLast?.getD '\n' from List.getLast?_cons]
    cases hj : (joinLinesNl (l2 :: ls2)).getLast? with
    | none =>
      rw [List.getLast?_eq_none_iff] at hj
      exact absurd hj (joinLinesNl_ne_nil l2 ls2 (hne l2 (List.mem_cons_self l2 ls2)))
    | some c => simp

theorem data_mk_eq (s : String) : (⟨s.data⟩ : String) = s := rfl

theorem pyStrip_data {s : String} (h : pyStrip s = s) : pyStripL s.data = s.data := by
  have h2 := congrArg String.data h
  simpa [pyStrip] using h2

theorem strip_inv_head {s : String} (h : pyStrip s = s) :
    ∀ c, s.data.head? = some c → isSpaceChar c = false := fun c hc =>
  head?_pyStripL_space (by rw [pyStrip_data h]; exact hc)

theorem strip_inv_getLast {s : String} (h : pyStrip s = s) :
    ∀ c, s.data.getLast? = some c → isSpaceChar c = false := fun c hc =>
  getLast?_pyStripL_space (by rw [pyStrip_data h]; exact hc)

theorem joinMeta_head_not_space : ∀ (kvs : List (String × String)), kvs ≠ [] →
    (∀ kv ∈ kvs, pyStrip kv.1 = kv.1) →
    ∀ c, (joinLinesNl (kvs.map lineCore)).head? = some c → isSpaceChar c = false := by
  intro kvs hne hkv c hc
  cases kvs with
  | nil => exact absurd rfl hne
  | cons kv rest =>
    rw [List.map_cons, joinLinesNl_head _ _ (lineCore_ne_nil kv)] at hc
    unfold lineCore at hc
    cases hk : kv.1.data with
    | nil =>
      rw [hk, List.nil_append, List.head?_cons, Option.some.injEq] at hc
      rw [← hc]
      decide
    | cons a as =>
      rw [hk, List.cons_append, List.head?_cons, Option.some.injEq] at hc
      rw [← hc]
      exact strip_inv_head (hkv kv (List.mem_cons_self kv rest)) a (by rw [hk]; rfl)

theorem joinMeta_last_not_space : ∀ (kvs : List (String × String)), kvs ≠ [] →
    (∀ kv ∈ kvs, pyStrip kv.2 = kv.2 ∧ kv.2 ≠ "") →
    ∀ c, (joinLinesNl (kvs.map lineCore)).getLast? = some c → isSpaceChar c = false := by
  intro kvs
  induction kvs with
  | nil => intro h; exact absurd rfl h
  | cons kv rest ih =>
    intro _ hkv c hc
    cases rest with
    | nil =>
      rw [List.map_cons, List.map_nil,
        show joinLinesNl [lineCore kv] = lineCore kv from rfl] at hc
      have hv : kv.2.data ≠ [] := by
        intro he
        apply (hkv kv (List.mem_cons_self _ _)).2
        apply String.ext
        rw [he]
      cases hv2 : kv.2.data with
      | nil => exact absurd hv2 hv
      | cons b bs =>
        unfold lineCore at hc
        rw [hv2, List.getLast?_append, List.getLast?_cons_cons, List.getLast?_cons_cons] at hc
        have hbs : (b :: bs).getLast? = some ((b :: bs).getLast (by simp)) := by
          rw [List.getLast?_eq_getLast]
        rw [hbs] at hc
        simp only [Option.or_some, Option.some.injEq] at hc
        apply strip_inv_getLast (hkv kv (List.mem_cons_self _ _)).1 c
        rw [hv2, hbs, hc]
    | cons kv2 rest2 =>
      rw [List.map_cons, joinLinesNl_getLast _ _ (by simp) (by
        intro x hx
        rw [List.mem_map] at hx
        obtain ⟨kv', _, hkv'⟩ := hx
        rw [← hkv']
        exact lineCore_ne_nil kv')] at hc
      exact ih (by simp) (fun kv' h' => hkv kv' (List.mem_cons_of_mem _ h')) c hc

theorem joinMeta_strip (kvs : List (String × String)) (hne : kvs ≠ [])
    (hkv : ∀ kv ∈ kvs, pyStrip kv.1 = kv.1 ∧ pyStrip kv.2 = kv.2 ∧ kv.2 ≠ "") :
    pyStripL (joinLinesNl (kvs.map lineCore)) = joinLinesNl (kvs.map lineCore) :=
  pyStripL_fix
    (joinMeta_head_not_space kvs hne (fun kv h => (hkv kv h).1))
    (joinMeta_last_not_space kvs hne (fun kv h => ⟨(hkv kv h).2.1, (hkv kv h).2.2⟩))

theorem splitNl_no_nl : ∀ (l : List Char), '\n' ∉ l → splitNl l = [l] := by
  intro l
  induction l with
  | nil => intro _; rfl
  | cons c cs ih =>
    intro h
    have hc : ¬ c = '\n' := fun he => h (he ▸ List.mem_cons_self c cs)
    rw [splitNl, if_neg hc, ih (fun hm => h (List.mem_cons_of_mem c hm))]
    rfl

theorem splitNl_append : ∀ (l X : List Char), '\n' ∉ l →
    splitNl (l ++ '\n' :: X) = l :: splitNl X := by
  intro l
  induction l with
  | nil => intro X _; rw [List.nil_append, splitNl, if_pos rfl]
  | cons c cs ih =>
    intro X h
    have hc : ¬ c = '\n' := fun he => h (he ▸ List.mem_cons_self c cs)
    show splitNl (c :: (cs ++ '\n' :: X)) = (c :: cs) :: splitNl X
    rw [splitNl, if_neg hc, ih X (fun hm => h (List.mem_cons_of_mem c hm))]
    rfl

theorem splitNl_joinLines : ∀ (lines : List (List Char)), lines ≠ [] →
    (∀ l ∈ lines, '\n' ∉ l) → splitNl (joinLinesNl lines) = lines := by
  intro lines
  induction lines with
  | nil => intro h; exact absurd rfl h
  | cons l rest ih =>
    intro _ hnl
    cases rest with
    | nil => exact splitNl_no_nl l (hnl l (List.mem_cons_self _ _))
    | cons l2 rest2 =>
      rw [show joinLinesNl (l :: l2 :: rest2) = l ++ '\n' :: joinLinesNl (l2 :: rest2) from by
        simp [joinLinesNl]]
      rw [splitNl_append l _ (hnl l (List.mem_cons_self _ _))]
      rw [ih (by simp) (fun x hx => hnl x (List.mem_cons_of_mem l hx))]

theorem splitFirstColon_append : ∀ (k v : List Char), ':' ∉ k →
    splitFirstColon (k ++ ':' :: v) = some (k, v) := by
  intro k
  induction k with
  | nil => intro v _; rw [List.nil_append, splitFirstColon, if_pos rfl]
  | cons c cs ih =>
    intro v h
    have hc : ¬ c = ':' := fun he => h (he ▸ List.mem_cons_self c cs)
    show splitFirstColon (c :: (cs ++ ':' :: v)) = some (c :: cs, v)
    rw [splitFirstColon, if_neg hc, ih v (fun hm => h (List.mem_cons_of_mem c hm))]
    rfl

theorem pyStripL_cons_space (l : List Char) : pyStripL (' ' :: l) = pyStripL l := by
  unfold pyStripL
  rw [List.dropWhile_cons_of_pos (by decide)]

theorem dictInsert_not_mem (m : List (String × String)) (kv : String × String)
    (h : kv.1 ∉ m.map Prod.fst) : dictInsert m kv = m ++ [kv] := by
  have hany : (m.any (fun p => p.1 == kv.1)) = false := by
    cases hx : m.any (fun p => p.1 == kv.1)
    · rfl
    · exfalso
      rw [List.any_eq_true] at hx
      obtain ⟨p, hp, hbeq⟩ := hx
      rw [beq_iff_eq] at hbeq
      exact h (hbeq ▸ List.mem_map_of_mem Prod.fst hp)
  unfold dictInsert
  rw [if_neg (by rw [hany]; exact Bool.false_ne_true)]

theorem metaFold_acc : ∀ (kvs : List (String × String)) (acc : List (String × String))
    (sh : Option (List Char)),
    (∀ kv ∈ kvs, pyStrip kv.1 = kv.1 ∧ pyStrip kv.2 = kv.2 ∧ ':' ∉ kv.1.data) →
    (∀ kv ∈ kvs, kv.1 ∉ acc.map Prod.fst) →
    (kvs.map Prod.fst).Nodup →
    (metaLinesFold (kvs.map lineCore) acc sh).1 = acc ++ kvs := by
  intro kvs
  induction kvs with
  | nil => intro acc sh _ _ _; simp [metaLinesFold]
  | cons kv rest ih =>
    intro acc sh hkv hdisj hnodup
    obtain ⟨hs1, hs2, hcol⟩ := hkv kv (List.mem_cons_self _ _)
    rw [List.map_cons]
    rw [show metaLinesFold (lineCore kv :: rest.map lineCore) acc sh
        = metaLinesFold (rest.map lineCore)
            (dictInsert acc (⟨pyStripL kv.1.data⟩, ⟨pyStripL (' ' :: kv.2.data)⟩))
            (some (' ' :: kv.2.data)) from by
      rw [metaLinesFold, show splitFirstColon (lineCore kv) = some (kv.1.data, ' ' :: kv.2.data)
        from splitFirstColon_append kv.1.data (' ' :: kv.2.data) hcol]]
    rw [pyStripL_cons_space, pyStrip_data hs1, pyStrip_data hs2, data_mk_eq, data_mk_eq]
    rw [show ((kv.1, kv.2) : String × String) = kv from rfl]
    rw [dictInsert_not_mem acc kv (hdisj kv (List.mem_cons_self _ _))]
    rw [ih (acc ++ [kv]) (some (' ' :: kv.2.data))
      (fun kv' h' => hkv kv' (List.mem_cons_of_mem _ h'))
      (fun kv' h' => by
        rw [List.map_append, List.mem_append]
        rintro (hin | hin)
        · exact hdisj kv' (List.mem_cons_of_mem _ h') hin
        · simp only [List.map_cons, List.map_nil, List.mem_singleton] at hin
          have hkv1 : kv.1 ∉ rest.map Prod.fst := (List.nodup_cons.mp hnodup).1
          exact hkv1 (hin ▸ List.mem_map_of_mem Prod.fst h'))
      (List.nodup_cons.mp hnodup).2]
    simp

/-! ## Claim theorems: concrete evaluations -/

/-- C1: the round-trip claim fails on the code.  For a record with two
paragraphs (and no section containing any reserved label string), parsing
the serialized dump recovers the url, title and statistics, but only the
first paragraph: the serializer separates numbered paragraph entries with a
blank line and the parser's paragraph block terminates at the first blank
line, so every paragraph after the first is lost. -/
theorem c1_roundtrip_loses_paragraphs :
    (parseScrapedContent (serializeRecord recTwoParas)).url = recTwoParas.url ∧
    (parseScrapedContent (serializeRecord recTwoParas)).title = recTwoParas.title ∧
    (parseScrapedContent (serializeRecord recTwoParas)).statistics =
      [("full_text_length", 17), ("total_headings", 0), ("total_paragraphs", 2),
       ("total_links", 0), ("total_images", 0)] ∧
    (parseScrapedContent (serializeRecord recTwoParas)).paragraphs = ["First paragraph here"] ∧
    (parseScrapedContent (serializeRecord recTwoParas)).paragraphs ≠
      recTwoParas.paragraphs.take 20 := by
  refine ⟨by decide, by decide, by decide, by decide, by decide⟩

/-- C2 counterexample: a blank line inside a block body does terminate the
block.  In the dump `"ABSTRACT:\nline one\n\nline two\n"` the non-label
body line `"line two"` follows an interior blank line; the parsed abstract
is just `"line one"` and does not contain `"line two"`, refuting the claim
that only a recognized label or end of input terminates the block. -/
theorem c2_blank_line_terminates_block :
    (parseScrapedContent "ABSTRACT:\nline one\n\nline two\n").abstract = "line one" ∧
    containsSub "line two" "ABSTRACT:\nline one\n\nline two\n" = true ∧
    containsSub "line two" (parseScrapedContent "ABSTRACT:\nline one\n\nline two\n").abstract
      = false := by
  refine ⟨by decide, by decide, by decide⟩

/-- C6: the statistics parse is not all-or-nothing in the claimed sense.
The disjunction part holds for every input (the parsed statistics dict is
either empty or carries exactly the five bound counts), but the positive
half of the claim fails: for the dump of `recWithMeta` the five-line
statistics pattern matches the dump (third conjunct), yet the parsed
statistics dict is empty, because the meta-tag loop rebinds the `content`
variable and the statistics search then runs over the last meta value
instead of the document. -/
theorem c6_stats_all_or_nothing_but_shadowed :
    (∀ content : String,
      (parseScrapedContent content).statistics = [] ∨
      ∃ n1 n2 n3 n4 n5, (parseScrapedContent content).statistics =
        [("full_text_length", n1), ("total_headings", n2), ("total_paragraphs", n3),
         ("total_links", n4), ("total_images", n5)]) ∧
    searchStats (serializeRecord recWithMeta).data = some (3, 0, 0, 0, 0) ∧
    (parseScrapedContent (serializeRecord recWithMeta)).statistics = [] := by
  refine ⟨?_, by decide, by decide⟩
  intro content
  simp only [parseScrapedContent]
  split
  · right
    exact ⟨_, _, _, _, _, rfl⟩
  · left
    rfl

/-- C7: a failure on one document aborts the URL batch.  With a fetch
oracle that fails on the first URL and succeeds on the second,
`scrape_multiple_websites` propagates the failure out of the loop: the
second URL is never processed and no failure count is returned (first two
conjuncts), even though fetching the second URL alone succeeds (third).
The dump-file batch loop `process_all_files`, by contrast, isolates the
failure: one file fails, the other is still processed (last conjuncts). -/
theorem c7_url_batch_aborts_on_failure :
    scrapeMultipleWebsites fetchOracle ["https://a.example", "https://b.example"]
      = .error "net error" ∧
    (∀ res, scrapeMultipleWebsites fetchOracle ["https://a.example", "https://b.example"]
      ≠ .ok res) ∧
    scrapeWebsite fetchOracle "https://b.example" = .ok recFetched ∧
    (processAllFiles readOracle "t" ["bad.txt", "good.txt"]).1 = 1 ∧
    (processAllFiles readOracle "t" ["bad.txt", "good.txt"]).2.1 = 1 := by
  have habort : scrapeMultipleWebsites fetchOracle ["https://a.example", "https://b.example"]
      = .error "net error" := rfl
  refine ⟨habort, ?_, rfl, by decide, by decide⟩
  intro res h
  rw [habort] at h
  exact Except.noConfusion h

/-- C8 counterexample: the `URL: ` label is matched in the middle of a
line.  In the input `"xx URL: middle\n"` the label never occurs at line
start, yet the parser recovers `"middle"`, refuting the claim that mid-line
occurrences are not matched. -/
theorem c8_label_matches_mid_line :
    (parseScrapedContent "xx URL: middle\n").url = "middle" ∧
    (parseScrapedContent "xx URL: middle\n").url ≠ "" := by
  refine ⟨by decide, by decide⟩

/-- C2 amended: a block's body extends to the earliest of a blank line, a
recognized terminator label, or end of input — a blank line does terminate
the block.  First conjunct: when a blank line follows the body (and no stop
position occurs inside the body), the captured block is exactly the body
before the blank line.  Second: a terminator label likewise terminates the
block.  Third: with no stop position at all, the block runs to end of input.
Fourth: instantiated on the parser's abstract field, the parsed abstract is
the stripped body preceding the first blank line. -/
theorem c2_amended_block_termination :
    (∀ (lab body rest : List Char) (terms : List (List Char)), nlnl ∈ terms →
      stopFree terms (body ++ '\n' :: '\n' :: rest) body.length = true →
      extractBlock lab terms (lab ++ body ++ '\n' :: '\n' :: rest) = some body) ∧
    (∀ (lab body rest : List Char) (terms : List (List Char)) (t : List Char),
      t ∈ terms → t ≠ [] →
      stopFree terms (body ++ t ++ rest) body.length = true →
      extractBlock lab terms (lab ++ body ++ t ++ rest) = some body) ∧
    (∀ (lab body : List Char) (terms : List (List Char)),
      stopFree terms body body.length = true →
      extractBlock lab terms (lab ++ body) = some body) ∧
    (∀ (body rest : List Char),
      stopFree abstractTerms (body ++ '\n' :: '\n' :: rest) body.length = true →
      (parseScrapedContent ⟨"ABSTRACT:\n".data ++ body ++ '\n' :: '\n' :: rest⟩).abstract
        = ⟨pyStripL body⟩) := by
  refine ⟨extractBlock_blank, extractBlock_term, extractBlock_end, ?_⟩
  intro body rest hfree
  simp only [parseScrapedContent, String.data_mk]
  rw [extractBlock_blank "ABSTRACT:\n".data body rest abstractTerms (by decide) hfree]

/-- C2 amended witness: the abstract block of a concrete dump with a
trailing blank line and further content is exactly the body before the
blank line. -/
theorem c2_amended_block_termination_witness :
    extractBlock "ABSTRACT:\n".data abstractTerms
      ("ABSTRACT:\n".data ++ "line one".data ++ '\n' :: '\n' :: "HEADINGS:\nH1: x\n".data)
      = some "line one".data ∧
    (parseScrapedContent ⟨"ABSTRACT:\n".data ++ "line one".data ++ '\n' :: '\n' :: "tail".data⟩).abstract
      = ⟨pyStripL "line one".data⟩ :=
  ⟨c2_amended_block_termination.1 "ABSTRACT:\n".data "line one".data "HEADINGS:\nH1: x\n".data
      abstractTerms (by decide) (by decide),
   c2_amended_block_termination.2.2.2 "line one".data "tail".data (by decide)⟩

/-- C8 amended: the parser recovers `url` by matching the label at its
first occurrence anywhere in the text — not only at line start — provided
at least one non-newline character follows, and takes the rest of that line
(stripped) as the value: here the label occurs mid-line after the prefix
`"xx "` and is still matched. -/
theorem c8_amended_label_anywhere (val rest : List Char) (hne : val ≠ []) (hnl : '\n' ∉ val) :
    (parseScrapedContent ⟨"xx URL: ".data ++ val ++ '\n' :: rest⟩).url = ⟨pyStripL val⟩ := by
  simp only [parseScrapedContent, String.data_mk]
  rw [matchLine_mid val rest hne hnl]

/-- C8 amended witness: a concrete mid-line label occurrence is matched. -/
theorem c8_amended_label_anywhere_witness :
    (parseScrapedContent ⟨"xx URL: ".data ++ "middle".data ++ '\n' :: []⟩).url
      = ⟨pyStripL "middle".data⟩ :=
  c8_amended_label_anywhere "middle".data [] (by decide) (by decide)

/-- C10: a links-block line containing the separator token `->` more than
once yields no link: `line.split('->')` has at least three parts, the
`len(parts) == 2` test fails, and the line is dropped entirely — the
surrounding block parses as if the line were absent. -/
theorem c10_multi_sep_line_dropped (a b c : List Char)
    (ha : occursL ['-', '>'] a = false) (hb : occursL ['-', '>'] b = false)
    (pre post : List (List Char)) :
    linkOfLine (a ++ '-' :: '>' :: b ++ '-' :: '>' :: c) = none ∧
    linksOfLines (pre ++ (a ++ '-' :: '>' :: b ++ '-' :: '>' :: c) :: post)
      = linksOfLines pre ++ linksOfLines post := by
  refine ⟨linkOfLine_two_seps a b c ha hb, ?_⟩
  unfold linksOfLines
  rw [List.filterMap_append, List.filterMap_cons_none (linkOfLine_two_seps a b c ha hb)]

/-- C10 witness: the line `"1. A -> B -> u"` produces no link and is
dropped from its block. -/
theorem c10_multi_sep_line_dropped_witness :
    linkOfLine ("1. A ".data ++ '-' :: '>' :: " B ".data ++ '-' :: '>' :: " u".data) = none ∧
    linksOfLines (["1. Home -> /home".data] ++
        ("1. A ".data ++ '-' :: '>' :: " B ".data ++ '-' :: '>' :: " u".data) ::
        ["2. End -> /end".data])
      = linksOfLines ["1. Home -> /home".data] ++ linksOfLines ["2. End -> /end".data] :=
  c10_multi_sep_line_dropped "1. A ".data " B ".data " u".data (by decide) (by decide)
    ["1. Home -> /home".data] ["2. End -> /end".data]

/-- C5: serializer truncation.  For every record with 25 paragraphs and 30
links, the dump carries exactly 20 numbered paragraph entries and exactly 20
numbered link entries, while the statistics block reports the untruncated
counts: the serialized text contains the lines `TOTAL PARAGRAPHS: 25` and
`TOTAL LINKS: 30`. -/
theorem c5_serializer_truncation (d : ScrapedData) (hp : d.paragraphs.length = 25)
    (hl : d.links.length = 30) :
    (paraEntries d.paragraphs).length = 20 ∧
    (linkEntries d.links).length = 20 ∧
    containsSub "TOTAL PARAGRAPHS: 25\n" (serializeRecord d) = true ∧
    containsSub "TOTAL LINKS: 30\n" (serializeRecord d) = true := by
  refine ⟨?_, ?_, ?_, ?_⟩
  · rw [paraEntries, paraEntriesFrom_length, List.length_take, hp]
    decide
  · rw [linkEntries, linkEntriesFrom_length, List.length_take, hl]
    decide
  · rw [show ("TOTAL PARAGRAPHS: 25\n" : String) = "TOTAL PARAGRAPHS: " ++ "25" ++ "\n" from by
      decide]
    unfold containsSub serializeRecord statsBlock
    rw [hp]
    simp only [String.data_append, List.append_assoc]
    apply occursL_append_left
    apply occursL_append_left
    apply occursL_append_left
    apply occursL_append_left
    apply occursL_append_left
    apply occursL_append_left
    apply occursL_append_left
    apply occursL_append_left
    exact occursL_label_num "TOTAL PARAGRAPHS: " "25" 25 (by decide) (by decide) _
  · rw [show ("TOTAL LINKS: 30\n" : String) = "TOTAL LINKS: " ++ "30" ++ "\n" from by decide]
    unfold containsSub serializeRecord statsBlock
    rw [hl]
    simp only [String.data_append, List.append_assoc]
    apply occursL_append_left
    apply occursL_append_left
    apply occursL_append_left
    apply occursL_append_left
    apply occursL_append_left
    apply occursL_append_left
    apply occursL_append_left
    apply occursL_append_left
    apply occursL_append_left
    apply occursL_append_left
    apply occursL_append_left
    exact occursL_label_num "TOTAL LINKS: " "30" 30 (by decide) (by decide) _

/-- C5 witness: a concrete record with 25 paragraphs and 30 links. -/
theorem c5_serializer_truncation_witness :
    (paraEntries recBig.paragraphs).length = 20 ∧
    (linkEntries recBig.links).length = 20 ∧
    containsSub "TOTAL PARAGRAPHS: 25\n" (serializeRecord recBig) = true ∧
    containsSub "TOTAL LINKS: 30\n" (serializeRecord recBig) = true :=
  c5_serializer_truncation recBig (by decide) (by decide)

/-- C3 counterexample: the meta mapping is not preserved for every record.
A key containing a colon is re-split at the first colon when re-parsed: the
record with meta mapping `{"a:b": "c"}` round-trips to `{"a": "b: c"}`. -/
theorem c3_colon_key_not_preserved :
    (parseScrapedContent (serializeRecord recColonKey)).meta_tags = [("a", "b: c")] ∧
    (parseScrapedContent (serializeRecord recColonKey)).meta_tags ≠ recColonKey.meta_tags := by
  refine ⟨by decide, by decide⟩

/-- C3 amended: the meta-tag mapping survives the serialize/parse round
trip for records whose meta entries are benign: keys contain no colon and no
newline, keys and values carry no surrounding whitespace, values are
nonempty and newline-free, keys are distinct, and no earlier section of the
dump contains the literal `META TAGS:` label nor does the block body contain
a terminator.  (The unrestricted claim is false: a colon inside a key is
re-split at the first colon, see the counterexample.) -/
theorem c3_amended_meta_roundtrip (d : ScrapedData)
    (hne : d.meta_tags ≠ [])
    (hkv : ∀ kv ∈ d.meta_tags,
      pyStrip kv.1 = kv.1 ∧ pyStrip kv.2 = kv.2 ∧ kv.2 ≠ "" ∧
      ':' ∉ kv.1.data ∧ '\n' ∉ kv.1.data ∧ '\n' ∉ kv.2.data)
    (hnodup : (d.meta_tags.map Prod.fst).Nodup)
    (hlabel : occursL "META TAGS:\n".data (serializeUpToMeta d ++ "META TAGS:").data = false)
    (hbody : stopFree metaTerms (metaCore d ++ '\n' :: '\n' :: (statsBlock d).data)
      (metaCore d).length = true) :
    (parseScrapedContent (serializeRecord d)).meta_tags = d.meta_tags := by
  have hdump : (serializeRecord d).data
      = (serializeUpToMeta d).data ++ ("META TAGS:\n".data
        ++ (metaCore d ++ '\n' :: '\n' :: (statsBlock d).data)) := by
    unfold serializeRecord metaSection
    rw [if_pos hne]
    simp only [String.data_append, List.append_assoc]
    rw [concatMeta_data d.meta_tags hne]
    simp [metaCore]
  have hlabel' : occursL "META TAGS:\n".data
      ((serializeUpToMeta d).data ++ ("META TAGS:\n".data).dropLast) = false := by
    rw [show ("META TAGS:\n".data).dropLast = ("META TAGS:" : String).data from rfl]
    rw [← String.data_append]
    exact hlabel
  have hex : extractBlock "META TAGS:\n".data metaTerms (serializeRecord d).data
      = some (metaCore d) := by
    unfold extractBlock
    rw [hdump, dropSub_append "META TAGS:\n".data (serializeUpToMeta d).data
      (metaCore d ++ '\n' :: '\n' :: (statsBlock d).data) hlabel', Option.map_some']
    rw [stopAt_append metaTerms (metaCore d) _ hbody]
    rw [show ('\n' :: '\n' :: (statsBlock d).data : List Char)
        = nlnl ++ (statsBlock d).data from rfl]
    rw [stopAt_term_head metaTerms nlnl _ (by decide) (by decide), List.append_nil]
  have hstrip : pyStripL (metaCore d) = metaCore d :=
    joinMeta_strip d.meta_tags hne
      (fun kv h => ⟨(hkv kv h).1, (hkv kv h).2.1, (hkv kv h).2.2.1⟩)
  have hsplit : splitNl (metaCore d) = d.meta_tags.map lineCore := by
    apply splitNl_joinLines
    · simp [hne]
    · intro l hl
      rw [List.mem_map] at hl
      obtain ⟨kv, hkvmem, hlc⟩ := hl
      rw [← hlc]
      unfold lineCore
      intro hmem
      rw [List.mem_append] at hmem
      rcases hmem with hmem | hmem
      · exact (hkv kv hkvmem).2.2.2.2.1 hmem
      · rcases List.mem_cons.mp hmem with h1 | hmem
        · exact absurd h1 (by decide)
        · rcases List.mem_cons.mp hmem with h1 | hmem
          · exact absurd h1 (by decide)
          · exact (hkv kv hkvmem).2.2.2.2.2 hmem
  have hfold : (metaLinesFold (d.meta_tags.map lineCore) [] none).1 = d.meta_tags := by
    rw [metaFold_acc d.meta_tags [] none
      (fun kv h => ⟨(hkv kv h).1, (hkv kv h).2.1, (hkv kv h).2.2.2.1⟩)
      (fun kv _ => by simp) hnodup]
    rfl
  simp only [parseScrapedContent]
  rw [hex]
  show (metaLinesFold (splitNl (pyStripL (metaCore d))) [] none).1 = d.meta_tags
  rw [hstrip, hsplit, hfold]

/-- C3 amended witness: a concrete record with two benign meta tags
round-trips its meta mapping exactly. -/
theorem c3_amended_meta_roundtrip_witness :
    (parseScrapedContent (serializeRecord recMetaGood)).meta_tags = recMetaGood.meta_tags :=
  c3_amended_meta_roundtrip recMetaGood (by decide) (by decide) (by decide) (by decide)
    (by decide)

/-- C4: the Normalizer is idempotent.  With the wall-clock timestamp made an
explicit input, re-running `preprocess_content` on its own output produces
byte-identical output: every content field is unchanged (no further
duplicates, disallowed characters, or short strings remain), and the
recomputed `processed_stats` coincide because they are functions of the
unchanged cleaned fields and of the run's timestamp. -/
theorem c4_normalizer_idempotent (now now' : String) (p : ParsedData) :
    preprocessContent now' (preprocessContent now p).1 = preprocessContent now' p := by
  simp only [preprocessContent, cleanText_idem, cleanHeadings_idem, cleanLinks_idem,
    cleanParagraphs_idem]

/-- C9: the Normalizer's frame conditions.  `url`, `meta_tags` and
`statistics` are carried over unchanged (pure copies); `title` and
`abstract` are exactly the cleaned originals; every surviving link keeps its
`href` unchanged (the href sequence is a subsequence of the original) with
only its text cleaned; every surviving heading keeps its level with only its
text cleaned; and every surviving paragraph is the cleaned form of an
original paragraph. -/
theorem c9_normalizer_frame (now : String) (p : ParsedData) :
    (preprocessContent now p).1.url = p.url ∧
    (preprocessContent now p).1.meta_tags = p.meta_tags ∧
    (preprocessContent now p).1.statistics = p.statistics ∧
    (preprocessContent now p).1.title = cleanText p.title ∧
    (preprocessContent now p).1.abstract = cleanText p.abstract ∧
    ((preprocessContent now p).1.links.map Link.href).Sublist (p.links.map Link.href) ∧
    ((preprocessContent now p).1.headings.map Heading.level).Sublist
      (p.headings.map Heading.level) ∧
    (∀ l ∈ (preprocessContent now p).1.links,
      ∃ l₀ ∈ p.links, l.href = l₀.href ∧ l.text = cleanText l₀.text) ∧
    (∀ h ∈ (preprocessContent now p).1.headings,
      ∃ h₀ ∈ p.headings, h.level = h₀.level ∧ h.text = cleanText h₀.text) ∧
    (∀ x ∈ (preprocessContent now p).1.paragraphs, ∃ p₀ ∈ p.paragraphs, x = cleanText p₀) :=
  ⟨rfl, rfl, rfl, rfl, rfl, cleanLinks_href_sublist p.links,
   cleanHeadings_level_sublist p.headings, cleanLinks_mem p.links,
   cleanHeadings_mem p.headings, cleanParagraphs_from p.paragraphs []⟩

end Scrape

